import Mathlib

/-!
Verification development for the poptimizer core: a shallow embedding of
`poptimizer/evolve/seq.py` (sequential median confidence intervals) and of
`poptimizer/dl/model.py` (training loop safety checks and the portfolio
weight optimizer), together with theorems settling the specification claims.
-/

/-! ### Embedding of `poptimizer/evolve/seq.py` -/

/-- Riemann zeta function of a real argument, as the series computed by
`scipy.special.zeta(s)` (Hurwitz zeta with default `q = 1`):
`zeta s = ∑ (n+1)⁻ˢ` over `n = 0, 1, 2, …`. -/
noncomputable def zeta (s : ℝ) : ℝ := tsum fun n : ℕ => 1 / ((n : ℝ) + 1) ^ s

/-- Embedding of `_median_conf_radius(t, alfa, m, nu, s)`: the time-uniform
confidence radius for a sample median.  Mirrors the source line by line:
`k1 = (nu**0.25 + nu**-0.25) / 2**0.5`, the iterated-logarithm term
`s * log(log(nu * t / m))`, the sequential-probability-ratio term
`log(2 * zeta(s) / (alfa * log(nu)**s))`, and the result
`k1 * 0.5 * (l_t / t)**0.5`. -/
noncomputable def median_conf_radius (t : ℕ) (alfa : ℝ) (m : ℕ) (nu : ℝ) (s : ℝ) : ℝ :=
  let k1 := (nu ^ (0.25 : ℝ) + nu ^ (-0.25 : ℝ)) / (2 : ℝ) ^ (0.5 : ℝ)
  let iterated_logarithm := s * Real.log (Real.log (nu * (t : ℝ) / (m : ℝ)))
  let spr_term := Real.log (2 * zeta s / (alfa * Real.log nu ^ s))
  let l_t := iterated_logarithm + spr_term
  k1 * 0.5 * (l_t / (t : ℝ)) ^ (0.5 : ℝ)

open Classical in
/-- Embedding of `minimum_bounding_n(alfa)`: the forward search
`for n in itertools.count(1): if _median_conf_radius(n, alfa, n) < 0.5: return n`
(default shape parameters `nu = 2.04`, `s = 1.4`).  The search is rendered as
`Nat.find` over the searched predicate; if no index satisfies the predicate the
Python loop diverges, rendered here by the (never reached, see the C4 theorem)
value `0`. -/
noncomputable def minimum_bounding_n (alfa : ℝ) : ℕ :=
  if h : ∃ k : ℕ, median_conf_radius (k + 1) alfa (k + 1) 2.04 1.4 < 0.5 then
    Nat.find h + 1
  else 0

open Classical in
/-- Embedding of `scipy.stats.scoreatpercentile(sample, per)` with the default
`interpolation_method='fraction'`: sort the sample, form the fractional index
`idx = per / 100 * (len(sample) - 1)` and linearly interpolate between the two
neighbouring order statistics (when `idx` is integral the fraction is `0` and
the value is the order statistic itself). -/
noncomputable def scoreatpercentile (sample : List ℝ) (per : ℝ) : ℝ :=
  let sorted := sample.insertionSort (· ≤ ·)
  let idx : ℝ := per / 100 * ((sample.length : ℝ) - 1)
  let i : ℕ := (⌊idx⌋).toNat
  sorted.getD i 0 + (idx - (⌊idx⌋ : ℝ)) * (sorted.getD (i + 1) 0 - sorted.getD i 0)

/-- Embedding of `median_conf_bound(sample, p_value)`: `(-inf, inf)` when the
sample is shorter than `minimum_bounding_n(p_value)`, otherwise the empirical
percentile interval at `(0.5 ± radius) * 100` where
`radius = _median_conf_radius(len(sample), p_value, n)`.  Infinities are
rendered in `EReal`. -/
noncomputable def median_conf_bound (sample : List ℝ) (p_value : ℝ) : EReal × EReal :=
  if sample.length < minimum_bounding_n p_value then (⊥, ⊤)
  else
    ((scoreatpercentile sample
        ((0.5 - median_conf_radius sample.length p_value (minimum_bounding_n p_value) 2.04 1.4)
          * 100) : ℝ),
     (scoreatpercentile sample
        ((0.5 + median_conf_radius sample.length p_value (minimum_bounding_n p_value) 2.04 1.4)
          * 100) : ℝ))

/-! ### Embedding of `poptimizer/dl/model.py` -/

/-- MongoDB document size cap from `model.py`: `MAX_DOC_SIZE = 2 * (2 ** 10) ** 2`. -/
def MAX_DOC_SIZE : ℕ := 2 * (2 ^ 10) ^ 2

/-- Batch memory cap in GiB from `model.py`: `MAX_BATCH_SIZE = 197`. -/
def MAX_BATCH_SIZE : ℕ := 197

/-- The model-error taxonomy of `model.py` / `wave_net.py`. -/
inductive ModelErr where
  | tooLongHistory
  | tooLargeModel
  | degeneratedModel
  | gradients
deriving DecidableEq

/-- Embedding of `Model._make_untrained_model`, abstracting the instantiated
module by its total parameter count `n_par`: raise `TooLargeModelError` when
`n_par > MAX_DOC_SIZE`, otherwise hand the module on. -/
def make_untrained_model (n_par : ℕ) : Except ModelErr ℕ :=
  if n_par > MAX_DOC_SIZE then .error .tooLargeModel else .ok n_par

/-- Embedding of `Model._load_trained_model`: constructs the untrained module
(with its parameter-count check) and then restores the saved state, which does
not alter the parameter count. -/
def load_trained_model (n_par : ℕ) : Except ModelErr ℕ :=
  make_untrained_model n_par

/-- Embedding of the prologue of `Model._train_model` up to and including the
batch-memory estimate: loader construction (a `ValueError` becomes
`TooLongHistoryError`), the degenerate-feature check, model construction via
`make_untrained_model`, and the check
`model_params * 4 * batch_size / (2**10)**3 > MAX_BATCH_SIZE` (stated over the
integers by clearing the denominator). -/
def train_model_setup (loader_ok : Bool) (n_features n_par batch_size : ℕ) :
    Except ModelErr ℕ :=
  if loader_ok = false then .error .tooLongHistory
  else if n_features = 1 then .error .degeneratedModel
  else
    match make_untrained_model n_par with
    | .error e => .error e
    | .ok p =>
        if p * 4 * batch_size > MAX_BATCH_SIZE * (2 ^ 10) ^ 3 then .error .tooLargeModel
        else .ok p

/-- Python `int()` applied to a real number: truncation toward zero. -/
noncomputable def pytrunc (x : ℝ) : ℤ := if 0 ≤ x then ⌊x⌋ else -⌊-x⌋

/-- Embedding of `total_steps = 1 + int(steps_per_epoch * epochs)` from
`_train_model`. -/
noncomputable def train_total_steps (steps_per_epoch : ℕ) (epochs : ℝ) : ℕ :=
  (1 + pytrunc ((steps_per_epoch : ℝ) * epochs)).toNat

/-- Embedding of `itertools.islice(itertools.chain.from_iterable(itertools.repeat(l)), n)`:
the first `n` elements of the infinite cyclic repetition of `l` (empty when `l`
is empty, matching the empty chain). -/
def cycleTake {α : Type} (l : List α) (n : ℕ) : List α :=
  (List.range n).filterMap fun i => l.get? (i % l.length)

/-- The stream of batches consumed by the training loop of `_train_model`:
the training loader repeated and cut off after `total_steps` batches. -/
noncomputable def train_batches {α : Type} (batches : List α) (epochs : ℝ) : List α :=
  cycleTake batches (train_total_steps batches.length epochs)

/-- Embedding of the objective built by `_make_utility_func`: the candidate `w`
is renormalized to sum to one, then
`U = ret - risk_aversion / 2 * variance - error_tolerance * variance ** 0.5`
with `ret = wᵀ mean` and `variance = wᵀ sigma w`; the solver minimizes `-U`. -/
noncomputable def utility_func {n : ℕ} (risk_aversion error_tolerance : ℝ)
    (mean : Fin n → ℝ) (sigma : Fin n → Fin n → ℝ) (w : Fin n → ℝ) : ℝ :=
  let wn : Fin n → ℝ := fun i => w i / ∑ j, w j
  let ret := (∑ i, wn i * mean i)
  let variance := (∑ i, ∑ j, wn i * sigma i j * wn j)
  Neg.neg (ret - risk_aversion / 2 * variance - error_tolerance * variance ^ (0.5 : ℝ))

/-- Embedding of the tail of `_opt_weight`: the box-constrained solver result
`rez.x` (abstracted as the list `x`) is divided by its own sum. -/
noncomputable def opt_weight (x : List ℝ) : List ℝ := x.map fun v => v / x.sum

/-- State of the sliding-window accumulators of `_train_model`: `llh_sum`,
`llh_deque`, `weight_sum`, `weight_deque`.  The deques are bounded by
`maxlen = steps_per_epoch` and seeded with `[0]`. -/
structure TrainAcc where
  llh_sum : ℝ
  llh_deque : List ℝ
  weight_sum : ℝ
  weight_deque : List ℝ

/-- `collections.deque(maxlen = maxlen).append`: drop the leftmost element
when the deque is full. -/
noncomputable def deque_append (maxlen : ℕ) (d : List ℝ) (x : ℝ) : List ℝ :=
  if d.length < maxlen then d ++ [x] else d.tail ++ [x]

/-- One step of the accumulator updates in the training loop of `_train_model`:
`llh_sum += llh_val - llh_deque[0]; llh_deque.append(llh_val)` and likewise for
the weights (in the source `llh_val = -loss.item()` and
`weight = means.shape[0]`). -/
noncomputable def train_acc_step (steps_per_epoch : ℕ) (acc : TrainAcc) (llh_val weight : ℝ) : TrainAcc :=
  { llh_sum := acc.llh_sum + llh_val - acc.llh_deque.headI
    llh_deque := deque_append steps_per_epoch acc.llh_deque llh_val
    weight_sum := acc.weight_sum + weight - acc.weight_deque.headI
    weight_deque := deque_append steps_per_epoch acc.weight_deque weight }

/-- Initial accumulator state of `_train_model`: sums `0`, deques `[0]`. -/
noncomputable def train_acc_init : TrainAcc :=
  { llh_sum := 0, llh_deque := [0], weight_sum := 0, weight_deque := [0] }

/-- The accumulator state after the training loop has processed the listed
`(-loss, weight)` pairs. -/
noncomputable def train_acc_run (steps_per_epoch : ℕ) (steps : List (ℝ × ℝ)) : TrainAcc :=
  steps.foldl (fun acc st => train_acc_step steps_per_epoch acc st.1 st.2) train_acc_init

/-- Python float comparison `a > b` lifted to possibly-NaN values (`none` is
NaN): any comparison involving NaN is `False`. -/
def nan_gt (x y : Option ℝ) : Prop :=
  match x, y with
  | some a, some b => b < a
  | _, _ => False

open Classical in
/-- The gradients check of `_train_model` along a run, processing the per-step
running log-likelihood values (`none` is NaN).  The state is `llh_min`, Python
`None` before the first step and set on the first step to `llh - LLH_DRAW_DOWN`
with `LLH_DRAW_DOWN = 1`; at each step `if not (llh > llh_min)` raises
`GradientsError`.  Returns the index of the step that raises, if any. -/
noncomputable def grad_aux : Option (Option ℝ) → ℕ → List (Option ℝ) → Option ℕ
  | _, _, [] => none
  | st, k, x :: rest =>
      let m : Option ℝ :=
        match st with
        | none => x.map fun a => a - 1
        | some m0 => m0
      if nan_gt x m then grad_aux (some m) (k + 1) rest else some k

/-- Index of the training step at which `_train_model` raises
`GradientsError`, given the sequence of running log-likelihood values. -/
noncomputable def grad_raise_idx (llhs : List (Option ℝ)) : Option ℕ :=
  grad_aux none 0 llhs

open Classical in
/-- The claim's reading of the gradients check, for comparison with the code:
`GradientsError` fires at the first step whose running log-likelihood is NaN or
lies strictly more than the drawdown `1.0` below the best running value
observed so far. -/
noncomputable def spec_grad_aux : Option ℝ → ℕ → List (Option ℝ) → Option ℕ
  | _, _, [] => none
  | best, k, x :: rest =>
      match x with
      | none => some k
      | some a =>
          match best with
          | none => spec_grad_aux (some a) (k + 1) rest
          | some b =>
              if a < b - 1 then some k else spec_grad_aux (some (max b a)) (k + 1) rest

/-- Raise index under the claim's reading of the gradients check. -/
noncomputable def spec_grad_raise_idx (llhs : List (Option ℝ)) : Option ℕ :=
  spec_grad_aux none 0 llhs

/-- The three numpy arrays `_opt_port` receives (and mutates in place). -/
structure OptPortArrays where
  mean : List ℝ
  var : List ℝ
  labels : List ℝ

/-- Embedding of the in-place rescaling prologue of `_opt_port`:
`mean *= scale; var *= scale; labels *= scale` where
`scale = YEAR_IN_TRADING_DAYS / FORECAST_DAYS` (the two configuration
constants are kept abstract as `year_days` and `forecast_days`). -/
noncomputable def opt_port_scaled (year_days forecast_days : ℝ) (a : OptPortArrays) : OptPortArrays :=
  { mean := a.mean.map (· * (year_days / forecast_days))
    var := a.var.map (· * (year_days / forecast_days))
    labels := a.labels.map (· * (year_days / forecast_days)) }

/-- Embedding of `_opt_port`: rescale the three arrays in place, compute the
weights from the solver result `x` (see `opt_weight`), and return the final
array state together with the realized return `(w * labels).sum()`.  The first
component is the state of the caller's arrays after the call. -/
noncomputable def opt_port (year_days forecast_days : ℝ) (x : List ℝ) (a : OptPortArrays) :
    OptPortArrays × ℝ :=
  let scaled := opt_port_scaled year_days forecast_days a
  let w := opt_weight x
  (scaled, (List.zipWith (· * ·) w scaled.labels).sum)

/-! ### Helper lemmas -/

lemma list_sum_map_div (l : List ℝ) (c : ℝ) : (l.map fun v => v / c).sum = l.sum / c := by
  induction l with
  | nil => simp
  | cons a t ih => simp [ih, add_div]

lemma cycleTake_length {α : Type} (l : List α) (hl : l ≠ []) (n : ℕ) :
    (cycleTake l n).length = n := by
  induction n with
  | zero => simp [cycleTake]
  | succ k ih =>
      have hlen : 0 < l.length := List.length_pos.mpr hl
      have hmod : k % l.length < l.length := Nat.mod_lt _ hlen
      have hget : l[k % l.length]? = some (l[k % l.length]) :=
        List.getElem?_eq_getElem hmod
      rw [cycleTake, List.range_succ, List.filterMap_append, List.length_append]
      rw [cycleTake] at ih
      rw [ih]
      have hsing : (List.filterMap (fun i => l.get? (i % l.length)) [k]).length = 1 := by
        simp [hget]
      omega

/-! ### Claim theorems -/

/-- C1: the weight vector returned by `_opt_weight` has one entry per ticker,
every entry nonnegative (the solver output is box-constrained to `[0, ∞)`),
and sums to 1, provided the solver output has nonzero sum. -/
theorem C1_opt_weight_simplex (tickers : List String) (x : List ℝ)
    (hlen : x.length = tickers.length) (hnn : ∀ v ∈ x, 0 ≤ v) (hsum : x.sum ≠ 0) :
    (opt_weight x).length = tickers.length
      ∧ (∀ v ∈ opt_weight x, 0 ≤ v)
      ∧ (opt_weight x).sum = 1 := by
  have hpos : 0 < x.sum := lt_of_le_of_ne (List.sum_nonneg hnn) (Ne.symm hsum)
  refine ⟨by simpa [opt_weight] using hlen, ?_, ?_⟩
  · intro v hv
    rcases List.mem_map.mp hv with ⟨u, hu, rfl⟩
    exact div_nonneg (hnn u hu) hpos.le
  · rw [opt_weight, list_sum_map_div, div_self hsum]

/-- Witness for C1 at the concrete solver output `[1, 3]` over two tickers. -/
theorem C1_opt_weight_simplex_witness :
    (([(1 : ℝ), 3].length = ["A", "B"].length) ∧ (∀ v ∈ [(1 : ℝ), 3], 0 ≤ v)
        ∧ ([(1 : ℝ), 3].sum ≠ 0))
      ∧ ((opt_weight [(1 : ℝ), 3]).length = ["A", "B"].length
          ∧ (∀ v ∈ opt_weight [(1 : ℝ), 3], 0 ≤ v)
          ∧ (opt_weight [(1 : ℝ), 3]).sum = 1) := by
  have h1 : [(1 : ℝ), 3].length = ["A", "B"].length := rfl
  have h2 : ∀ v ∈ [(1 : ℝ), 3], 0 ≤ v := by
    intro v hv
    rcases List.mem_cons.mp hv with h | h
    · norm_num [h]
    · simp only [List.mem_singleton] at h
      norm_num [h]
  have h3 : ([(1 : ℝ), 3]).sum ≠ 0 := by norm_num
  exact ⟨⟨h1, h2, h3⟩, C1_opt_weight_simplex ["A", "B"] [1, 3] h1 h2 h3⟩

/-- C6: whenever the parameter count exceeds `2,097,152`, model construction
(`_make_untrained_model`, hence `_train_model` and `_load_trained_model`)
raises `TooLargeModelError`; the error arises at construction and does not
depend on the configured batch size. -/
theorem C6_param_count_cap (loader_ok : Bool) (n_features n_par batch_size : ℕ)
    (hok : loader_ok = true) (hfeat : n_features ≠ 1) (hpar : 2097152 < n_par) :
    make_untrained_model n_par = .error .tooLargeModel
      ∧ train_model_setup loader_ok n_features n_par batch_size = .error .tooLargeModel
      ∧ load_trained_model n_par = .error .tooLargeModel
      ∧ ∀ batch_size2 : ℕ,
          train_model_setup loader_ok n_features n_par batch_size2
            = train_model_setup loader_ok n_features n_par batch_size := by
  have hcap : n_par > MAX_DOC_SIZE := by
    have : MAX_DOC_SIZE = 2097152 := by norm_num [MAX_DOC_SIZE]
    omega
  subst hok
  have hmk : make_untrained_model n_par = .error .tooLargeModel := by
    simp [make_untrained_model, hcap]
  refine ⟨hmk, ?_, hmk, ?_⟩
  · simp [train_model_setup, hfeat, hmk]
  · intro batch_size2
    simp [train_model_setup, hfeat, hmk]

/-- Witness for C6 at a parameter count of `2097153` with batch size `5`. -/
theorem C6_param_count_cap_witness :
    (true = true ∧ (2 : ℕ) ≠ 1 ∧ (2097152 : ℕ) < 2097153)
      ∧ train_model_setup true 2 2097153 5 = .error .tooLargeModel := by
  have h1 : true = true := rfl
  have h2 : (2 : ℕ) ≠ 1 := by norm_num
  have h3 : (2097152 : ℕ) < 2097153 := by norm_num
  exact ⟨⟨h1, h2, h3⟩, (C6_param_count_cap true 2 2097153 5 h1 h2 h3).2.1⟩

/-- C7 counterexample: with 3 batches per epoch and `epochs = 1/2` the code
computes `total_steps = 1 + int(3 * 0.5) = 2`, while the claim's formula
`ceil(epochs * steps_per_epoch) + 1 = 3` disagrees, so the loop does not run
`ceil + 1` steps. -/
theorem C7_counterexample :
    (train_batches [0, 1, 2] ((1 : ℝ) / 2)).length = 2
      ∧ (⌈(([0, 1, 2] : List ℕ).length : ℝ) * ((1 : ℝ) / 2)⌉.toNat + 1 = 3)
      ∧ (train_batches [0, 1, 2] ((1 : ℝ) / 2)).length
          ≠ ⌈(([0, 1, 2] : List ℕ).length : ℝ) * ((1 : ℝ) / 2)⌉.toNat + 1 := by
  have hlen3 : ([0, 1, 2] : List ℕ).length = 3 := rfl
  have hfloor : ⌊(((3 : ℕ) : ℝ)) * ((1 : ℝ) / 2)⌋ = 1 := by
    rw [Int.floor_eq_iff]
    constructor <;> norm_num
  have hceil : ⌈(((3 : ℕ) : ℝ)) * ((1 : ℝ) / 2)⌉ = 2 := by
    rw [Int.ceil_eq_iff]
    constructor <;> norm_num
  have hsteps : train_total_steps ([0, 1, 2] : List ℕ).length ((1 : ℝ) / 2) = 2 := by
    rw [train_total_steps, pytrunc, hlen3]
    rw [if_pos (by positivity : (0 : ℝ) ≤ (((3 : ℕ) : ℝ)) * ((1 : ℝ) / 2))]
    rw [hfloor]
    decide
  have hlen : (train_batches [0, 1, 2] ((1 : ℝ) / 2)).length = 2 := by
    rw [train_batches, hsteps, cycleTake_length _ (by simp)]
  refine ⟨hlen, ?_, ?_⟩
  · rw [hlen3, hceil]
    decide
  · rw [hlen, hlen3, hceil]
    decide

/-- C7 amended: the training loop of `_train_model` executes exactly
`floor(epochs * steps_per_epoch) + 1` optimization steps (Python `int`
truncates, it does not round up), for a nonempty loader and nonnegative
`epochs`. -/
theorem C7_total_steps_floor {α : Type} (batches : List α) (epochs : ℝ)
    (hne : batches ≠ []) (he : 0 ≤ epochs) :
    (train_batches batches epochs).length = 1 + (⌊(batches.length : ℝ) * epochs⌋).toNat := by
  have hx : 0 ≤ (batches.length : ℝ) * epochs := mul_nonneg (Nat.cast_nonneg _) he
  have h0 : 0 ≤ ⌊(batches.length : ℝ) * epochs⌋ := Int.floor_nonneg.mpr hx
  have h1 : train_total_steps batches.length epochs
      = 1 + (⌊(batches.length : ℝ) * epochs⌋).toNat := by
    rw [train_total_steps, pytrunc, if_pos hx]
    omega
  rw [train_batches, h1, cycleTake_length _ hne]

/-- Witness for the amended C7 at 3 batches and `epochs = 1/2`. -/
theorem C7_total_steps_floor_witness :
    (([0, 1, 2] : List ℕ) ≠ [] ∧ (0 : ℝ) ≤ (1 : ℝ) / 2)
      ∧ (train_batches [0, 1, 2] ((1 : ℝ) / 2)).length
          = 1 + (⌊((([0, 1, 2] : List ℕ).length : ℕ) : ℝ) * ((1 : ℝ) / 2)⌋).toNat := by
  have h1 : ([0, 1, 2] : List ℕ) ≠ [] := by simp
  have h2 : (0 : ℝ) ≤ (1 : ℝ) / 2 := by norm_num
  exact ⟨⟨h1, h2⟩, C7_total_steps_floor [0, 1, 2] ((1 : ℝ) / 2) h1 h2⟩

/-- C8: the objective produced by `_make_utility_func` is invariant under
positive rescaling of its argument, because the candidate weight vector is
renormalized to sum to one inside the objective. -/
theorem C8_utility_scale_invariance {n : ℕ} (risk_aversion error_tolerance c : ℝ)
    (mean : Fin n → ℝ) (sigma : Fin n → Fin n → ℝ) (w : Fin n → ℝ)
    (hc : 0 < c) (hw : 0 < ∑ j, w j) :
    utility_func risk_aversion error_tolerance mean sigma (fun i => c * w i)
      = utility_func risk_aversion error_tolerance mean sigma w := by
  have hnorm : ∀ i, (c * w i) / (∑ j, c * w j) = w i / ∑ j, w j := by
    intro i
    rw [← Finset.mul_sum]
    exact mul_div_mul_left _ _ (ne_of_gt hc)
  simp only [utility_func, hnorm]

/-- Witness for C8: doubling an all-ones weight vector over two assets leaves
the objective unchanged. -/
theorem C8_utility_scale_invariance_witness :
    ((0 : ℝ) < 2 ∧ (0 : ℝ) < ∑ _j : Fin 2, (1 : ℝ))
      ∧ utility_func 1 0 (fun _ : Fin 2 => 1) (fun _ _ => 1)
          (fun i => 2 * (fun _ : Fin 2 => (1 : ℝ)) i)
        = utility_func 1 0 (fun _ : Fin 2 => 1) (fun _ _ => 1)
          (fun _ : Fin 2 => (1 : ℝ)) := by
  have hc : (0 : ℝ) < 2 := by norm_num
  have hw : (0 : ℝ) < ∑ _j : Fin 2, (1 : ℝ) := by
    rw [Finset.sum_const]
    norm_num
  exact ⟨⟨hc, hw⟩,
    C8_utility_scale_invariance 1 0 2 (fun _ => 1) (fun _ _ => 1) (fun _ => 1) hc hw⟩

/-- One deque-and-sum update preserves the sliding-window invariant: the sum
register equals the deque content sum, the deque stays nonempty, bounded by
`maxlen`, and headed by the zero seed while not yet full. -/
lemma deque_inv_step (spe : ℕ) (s : ℝ) (d : List ℝ) (x : ℝ)
    (hsum : s = d.sum) (hne : d ≠ []) (hlen : d.length ≤ spe)
    (hhead : d.length < spe → d.headI = 0) :
    s + x - d.headI = (deque_append spe d x).sum
      ∧ deque_append spe d x ≠ []
      ∧ (deque_append spe d x).length ≤ spe
      ∧ ((deque_append spe d x).length < spe → (deque_append spe d x).headI = 0) := by
  rcases d with _ | ⟨a, t⟩
  · exact absurd rfl hne
  rw [deque_append]
  by_cases hfull : (a :: t).length < spe
  · rw [if_pos hfull]
    have ha : a = 0 := hhead hfull
    refine ⟨?_, by simp, ?_, ?_⟩
    · rw [hsum, List.sum_append]
      simp [ha]
    · rw [List.length_append]
      simpa using hfull
    · intro hlt
      rw [List.length_append] at hlt
      have : (a :: t).length < spe := by
        simp only [List.length_singleton] at hlt
        omega
      simp [List.headI, ha]
  · rw [if_neg hfull]
    have hfix : (a :: t).length = spe := le_antisymm hlen (not_lt.mp hfull)
    refine ⟨?_, by simp, ?_, ?_⟩
    · rw [hsum, List.sum_append]
      simp [List.sum_cons]
      ring
    · rw [List.length_append]
      simp only [List.tail_cons, List.length_singleton]
      rw [List.length_cons] at hfix
      omega
    · intro hlt
      rw [List.length_append] at hlt
      simp only [List.tail_cons, List.length_singleton] at hlt
      rw [List.length_cons] at hfix
      omega

/-- The sliding-window invariant holds for both accumulator pairs after any
run of the training loop from any state satisfying it. -/
lemma train_acc_fold_inv (spe : ℕ) (steps : List (ℝ × ℝ)) (acc : TrainAcc)
    (h : acc.llh_sum = acc.llh_deque.sum ∧ acc.llh_deque ≠ []
        ∧ acc.llh_deque.length ≤ spe
        ∧ (acc.llh_deque.length < spe → acc.llh_deque.headI = 0)
        ∧ acc.weight_sum = acc.weight_deque.sum ∧ acc.weight_deque ≠ []
        ∧ acc.weight_deque.length ≤ spe
        ∧ (acc.weight_deque.length < spe → acc.weight_deque.headI = 0)) :
    (steps.foldl (fun a st => train_acc_step spe a st.1 st.2) acc).llh_sum
        = (steps.foldl (fun a st => train_acc_step spe a st.1 st.2) acc).llh_deque.sum
      ∧ (steps.foldl (fun a st => train_acc_step spe a st.1 st.2) acc).llh_deque ≠ []
      ∧ (steps.foldl (fun a st => train_acc_step spe a st.1 st.2) acc).llh_deque.length ≤ spe
      ∧ ((steps.foldl (fun a st => train_acc_step spe a st.1 st.2) acc).llh_deque.length < spe
          → (steps.foldl (fun a st => train_acc_step spe a st.1 st.2) acc).llh_deque.headI = 0)
      ∧ (steps.foldl (fun a st => train_acc_step spe a st.1 st.2) acc).weight_sum
        = (steps.foldl (fun a st => train_acc_step spe a st.1 st.2) acc).weight_deque.sum
      ∧ (steps.foldl (fun a st => train_acc_step spe a st.1 st.2) acc).weight_deque ≠ []
      ∧ (steps.foldl (fun a st => train_acc_step spe a st.1 st.2) acc).weight_deque.length ≤ spe
      ∧ ((steps.foldl (fun a st => train_acc_step spe a st.1 st.2) acc).weight_deque.length < spe
          → (steps.foldl (fun a st => train_acc_step spe a st.1 st.2) acc).weight_deque.headI
              = 0) := by
  induction steps generalizing acc with
  | nil => exact h
  | cons st rest ih =>
      obtain ⟨h1, h2, h3, h4, h5, h6, h7, h8⟩ := h
      have hl := deque_inv_step spe acc.llh_sum acc.llh_deque st.1 h1 h2 h3 h4
      have hw := deque_inv_step spe acc.weight_sum acc.weight_deque st.2 h5 h6 h7 h8
      exact ih (train_acc_step spe acc st.1 st.2)
        ⟨hl.1, hl.2.1, hl.2.2.1, hl.2.2.2, hw.1, hw.2.1, hw.2.2.1, hw.2.2.2⟩

/-- C9: throughout the training loop, the accumulator `llh_sum` equals the sum
of the elements currently in `llh_deque` and `weight_sum` equals the sum of
`weight_deque`, and both deques hold at most `steps_per_epoch` elements. -/
theorem C9_sliding_window_invariant (steps_per_epoch : ℕ) (steps : List (ℝ × ℝ))
    (hspe : 1 ≤ steps_per_epoch) :
    (train_acc_run steps_per_epoch steps).llh_sum
        = (train_acc_run steps_per_epoch steps).llh_deque.sum
      ∧ (train_acc_run steps_per_epoch steps).weight_sum
        = (train_acc_run steps_per_epoch steps).weight_deque.sum
      ∧ (train_acc_run steps_per_epoch steps).llh_deque.length ≤ steps_per_epoch
      ∧ (train_acc_run steps_per_epoch steps).weight_deque.length ≤ steps_per_epoch := by
  have hinit : train_acc_init.llh_sum = train_acc_init.llh_deque.sum
      ∧ train_acc_init.llh_deque ≠ []
      ∧ train_acc_init.llh_deque.length ≤ steps_per_epoch
      ∧ (train_acc_init.llh_deque.length < steps_per_epoch
          → train_acc_init.llh_deque.headI = 0)
      ∧ train_acc_init.weight_sum = train_acc_init.weight_deque.sum
      ∧ train_acc_init.weight_deque ≠ []
      ∧ train_acc_init.weight_deque.length ≤ steps_per_epoch
      ∧ (train_acc_init.weight_deque.length < steps_per_epoch
          → train_acc_init.weight_deque.headI = 0) := by
    refine ⟨by simp [train_acc_init], by simp [train_acc_init], ?_, ?_, ?_, ?_, ?_, ?_⟩
      <;> simp [train_acc_init]
    · omega
    · omega
  have h := train_acc_fold_inv steps_per_epoch steps train_acc_init hinit
  exact ⟨h.1, h.2.2.2.2.1, h.2.2.1, h.2.2.2.2.2.2.1⟩

/-- Witness for C9 with a window of one epoch of two steps and three batches. -/
theorem C9_sliding_window_invariant_witness :
    1 ≤ 2
      ∧ ((train_acc_run 2 [(1, 2), (3, 4), (5, 6)]).llh_sum
          = (train_acc_run 2 [(1, 2), (3, 4), (5, 6)]).llh_deque.sum
        ∧ (train_acc_run 2 [(1, 2), (3, 4), (5, 6)]).weight_sum
          = (train_acc_run 2 [(1, 2), (3, 4), (5, 6)]).weight_deque.sum
        ∧ (train_acc_run 2 [(1, 2), (3, 4), (5, 6)]).llh_deque.length ≤ 2
        ∧ (train_acc_run 2 [(1, 2), (3, 4), (5, 6)]).weight_deque.length ≤ 2) :=
  ⟨by norm_num, C9_sliding_window_invariant 2 [(1, 2), (3, 4), (5, 6)] (by norm_num)⟩

/-- C10: `_opt_port` rescales its `mean`, `var` and `labels` array arguments in
place by `YEAR_IN_TRADING_DAYS / FORECAST_DAYS`, so after the call the caller
holds the annualized arrays (different from the passed values whenever the
scale is not one and an entry is nonzero), and the realized return is computed
from the rescaled labels. -/
theorem C10_opt_port_mutates (year_days forecast_days : ℝ) (x : List ℝ) (a : OptPortArrays) :
    (opt_port year_days forecast_days x a).1.mean
        = a.mean.map (· * (year_days / forecast_days))
      ∧ (opt_port year_days forecast_days x a).1.var
        = a.var.map (· * (year_days / forecast_days))
      ∧ (opt_port year_days forecast_days x a).1.labels
        = a.labels.map (· * (year_days / forecast_days))
      ∧ (opt_port year_days forecast_days x a).2
        = (List.zipWith (· * ·) (opt_weight x)
            (a.labels.map (· * (year_days / forecast_days)))).sum
      ∧ (year_days / forecast_days ≠ 1 → ∀ v ∈ a.mean, v ≠ 0 →
          (opt_port year_days forecast_days x a).1.mean ≠ a.mean) := by
  refine ⟨rfl, rfl, rfl, rfl, ?_⟩
  intro hr v hv hv0 heq
  have heq2 : a.mean.map (· * (year_days / forecast_days)) = a.mean := heq
  obtain ⟨i, hi⟩ := List.mem_iff_get?.mp hv
  have hmap := List.get?_map (· * (year_days / forecast_days)) a.mean i
  rw [heq2, hi] at hmap
  simp only [Option.map_some', Option.some.injEq] at hmap
  have hv1 : v * (year_days / forecast_days) = v * 1 := by
    rw [mul_one]
    exact hmap.symm
  exact hr (mul_left_cancel₀ hv0 hv1)

/-- Witness for C10: with scale `2 / 1` and mean array `[3]` the caller's mean
array is changed by the call. -/
theorem C10_opt_port_mutates_witness :
    ((2 : ℝ) / 1 ≠ 1 ∧ (3 : ℝ) ∈ [(3 : ℝ)] ∧ (3 : ℝ) ≠ 0)
      ∧ (opt_port 2 1 [1] ⟨[3], [4], [5]⟩).1.mean ≠ [(3 : ℝ)] := by
  have h1 : (2 : ℝ) / 1 ≠ 1 := by norm_num
  have h2 : (3 : ℝ) ∈ [(3 : ℝ)] := by simp
  have h3 : (3 : ℝ) ≠ 0 := by norm_num
  exact ⟨⟨h1, h2, h3⟩,
    (C10_opt_port_mutates 2 1 [1] ⟨[3], [4], [5]⟩).2.2.2.2 h1 3 h2 h3⟩

/-- Characterization of the gradients check once `llh_min` is fixed: scanning
from counter `k`, the run returns `none` when every remaining value passes the
comparison, and returns index `k + i` exactly when position `i` holds the first
value failing it. -/
lemma grad_aux_char (m : Option ℝ) (k : ℕ) (l : List (Option ℝ)) :
    (grad_aux (some m) k l = none ↔ ∀ x ∈ l, nan_gt x m)
      ∧ ∀ j : ℕ, grad_aux (some m) k l = some j ↔
          ∃ i : ℕ, j = k + i ∧ (∀ x ∈ l.take i, nan_gt x m)
            ∧ ∃ x, l.get? i = some x ∧ ¬ nan_gt x m := by
  induction l generalizing k with
  | nil =>
      refine ⟨by simp [grad_aux], fun j => ?_⟩
      simp [grad_aux]
  | cons x rest ih =>
      by_cases hx : nan_gt x m
      · have hstep : grad_aux (some m) k (x :: rest) = grad_aux (some m) (k + 1) rest := by
          simp only [grad_aux]
          rw [if_pos hx]
        refine ⟨?_, fun j => ?_⟩
        · rw [hstep, (ih (k + 1)).1]
          constructor
          · intro h y hy
            rcases List.mem_cons.mp hy with rfl | hy'
            · exact hx
            · exact h y hy'
          · intro h y hy
            exact h y (List.mem_cons_of_mem _ hy)
        · rw [hstep, (ih (k + 1)).2 j]
          constructor
          · rintro ⟨i, rfl, htake, hfail⟩
            refine ⟨i + 1, by ring, ?_, ?_⟩
            · intro y hy
              rw [List.take_succ_cons] at hy
              rcases List.mem_cons.mp hy with rfl | hy'
              · exact hx
              · exact htake y hy'
            · simpa using hfail
          · rintro ⟨i, hj, htake, hfail⟩
            cases i with
            | zero =>
                obtain ⟨y, hy, hyn⟩ := hfail
                rw [List.get?_cons_zero] at hy
                cases hy
                exact absurd hx hyn
            | succ i2 =>
                refine ⟨i2, by omega, ?_, ?_⟩
                · intro y hy
                  exact htake y (by simpa [List.take_succ_cons] using Or.inr hy)
                · simpa using hfail
      · have hstep : grad_aux (some m) k (x :: rest) = some k := by
          simp only [grad_aux]
          rw [if_neg hx]
        refine ⟨?_, fun j => ?_⟩
        · rw [hstep]
          constructor
          · intro h
            exact absurd h (by simp)
          · intro h
            exact absurd (h x (List.mem_cons_self _ _)) hx
        · rw [hstep]
          constructor
          · intro h
            have hkj : k = j := by
              injection h
            refine ⟨0, by omega, by simp, ⟨x, by simp, hx⟩⟩
          · rintro ⟨i, hj, htake, hfail⟩
            cases i with
            | zero => simp [hj]
            | succ i2 =>
                have : nan_gt x m := htake x (by simp [List.take_succ_cons])
                exact absurd this hx

/-- C2 counterexample: along the running log-likelihood values `0, 5, 3.5` the
code never raises `GradientsError` (every value stays above the first value
minus the drawdown `1.0`), while the claim's reading (drawdown measured from
the best value so far, here `5`) raises at the third step. -/
theorem C2_gradients_counterexample :
    grad_raise_idx [some 0, some 5, some (7 / 2)] = none
      ∧ spec_grad_raise_idx [some 0, some 5, some (7 / 2)] = some 2
      ∧ grad_raise_idx [some 0, some 5, some (7 / 2)]
          ≠ spec_grad_raise_idx [some 0, some 5, some (7 / 2)] := by
  have h1 : grad_raise_idx [some 0, some 5, some (7 / 2)] = none := by
    rw [grad_raise_idx]
    simp only [grad_aux, Option.map_some', nan_gt]
    rw [if_pos (by norm_num : (0 : ℝ) - 1 < 0)]
    rw [if_pos (by norm_num : (0 : ℝ) - 1 < 5)]
    rw [if_pos (by norm_num : (0 : ℝ) - 1 < 7 / 2)]
  have h2 : spec_grad_raise_idx [some 0, some 5, some (7 / 2)] = some 2 := by
    rw [spec_grad_raise_idx]
    simp only [spec_grad_aux]
    rw [if_neg (by norm_num : ¬(5 : ℝ) < 0 - 1)]
    rw [if_pos (by norm_num [max_def] : (7 : ℝ) / 2 < max (0 : ℝ) 5 - 1)]
  exact ⟨h1, h2, by rw [h1, h2]; simp⟩

/-- C2 amended: `_train_model` raises `GradientsError` at a step exactly when
the running log-likelihood fails to strictly exceed `llh_min`, where `llh_min`
is fixed at the first step's running value minus the drawdown `1.0` and never
updated afterwards (a drop of at least `1.0` below the first value — not the
best value so far — triggers, as does a NaN, including a NaN at the very first
step); training continues otherwise. -/
theorem C2_gradients_check (v : ℝ) (rest : List (Option ℝ)) :
    grad_raise_idx (none :: rest) = some 0
      ∧ (grad_raise_idx (some v :: rest) = none ↔ ∀ x ∈ rest, nan_gt x (some (v - 1)))
      ∧ ∀ k : ℕ, grad_raise_idx (some v :: rest) = some (k + 1) ↔
          (∀ x ∈ rest.take k, nan_gt x (some (v - 1)))
            ∧ ∃ x, rest.get? k = some x ∧ ¬ nan_gt x (some (v - 1)) := by
  have hfirst : grad_raise_idx (none :: rest) = some 0 := by
    rw [grad_raise_idx]
    simp only [grad_aux, Option.map_none']
    rw [if_neg (by simp [nan_gt] : ¬ nan_gt none none)]
  have hlt : v - 1 < v := by linarith
  have hstep : grad_raise_idx (some v :: rest) = grad_aux (some (some (v - 1))) 1 rest := by
    rw [grad_raise_idx]
    simp only [grad_aux, Option.map_some']
    rw [if_pos (show nan_gt (some v) (some (v - 1)) from hlt)]
  refine ⟨hfirst, ?_, fun k => ?_⟩
  · rw [hstep]
    exact (grad_aux_char (some (v - 1)) 1 rest).1
  · rw [hstep, (grad_aux_char (some (v - 1)) 1 rest).2 (k + 1)]
    constructor
    · rintro ⟨i, hki, htake, hfail⟩
      have : i = k := by omega
      subst this
      exact ⟨htake, hfail⟩
    · rintro ⟨htake, hfail⟩
      exact ⟨k, by omega, htake, hfail⟩

/-- The zeta series converges for exponents greater than one. -/
lemma zeta_summable {s : ℝ} (hs : 1 < s) :
    Summable (fun n : ℕ => 1 / ((n : ℝ) + 1) ^ s) := by
  have h := Real.summable_one_div_nat_rpow.mpr hs
  have h2 := (summable_nat_add_iff 1).mpr h
  simpa using h2

/-- The zeta series is at least its first term, which is one. -/
lemma one_le_zeta {s : ℝ} (hs : 1 < s) : 1 ≤ zeta s := by
  have hsum := zeta_summable hs
  have h0 : (1 : ℝ) = 1 / (((0 : ℕ) : ℝ) + 1) ^ s := by
    norm_num [Real.one_rpow]
  rw [zeta]
  calc (1 : ℝ) = 1 / (((0 : ℕ) : ℝ) + 1) ^ s := h0
    _ ≤ tsum (fun n : ℕ => 1 / ((n : ℝ) + 1) ^ s) := le_tsum hsum 0 fun j _ => by positivity

lemma zeta_pos {s : ℝ} (hs : 1 < s) : 0 < zeta s :=
  lt_of_lt_of_le one_pos (one_le_zeta hs)

/-- The constant `k1` of the radius formula is positive. -/
lemma k1_pos {nu : ℝ} (hnu : 1 < nu) :
    0 < (nu ^ (0.25 : ℝ) + nu ^ (-0.25 : ℝ)) / (2 : ℝ) ^ (0.5 : ℝ) := by
  have h0 : (0 : ℝ) < nu := lt_trans one_pos hnu
  have ha : 0 < nu ^ (0.25 : ℝ) := Real.rpow_pos_of_pos h0 _
  have hb : 0 < nu ^ (-0.25 : ℝ) := Real.rpow_pos_of_pos h0 _
  have hc : (0 : ℝ) < (2 : ℝ) ^ (0.5 : ℝ) := Real.rpow_pos_of_pos (by norm_num) _
  positivity

/-- The constant `k1` is at least `√2` (AM-GM on `nu^0.25 + nu^-0.25`). -/
lemma sqrt_two_le_k1 {nu : ℝ} (hnu : 1 < nu) :
    Real.sqrt 2 ≤ (nu ^ (0.25 : ℝ) + nu ^ (-0.25 : ℝ)) / (2 : ℝ) ^ (0.5 : ℝ) := by
  have h0 : (0 : ℝ) < nu := lt_trans one_pos hnu
  have ha : 0 < nu ^ (0.25 : ℝ) := Real.rpow_pos_of_pos h0 _
  have hsum : 2 ≤ nu ^ (0.25 : ℝ) + nu ^ (-0.25 : ℝ) := by
    rw [Real.rpow_neg h0.le]
    have hmul : nu ^ (0.25 : ℝ) * (nu ^ (0.25 : ℝ))⁻¹ = 1 :=
      mul_inv_cancel₀ (ne_of_gt ha)
    nlinarith [sq_nonneg (nu ^ (0.25 : ℝ) - 1), ha]
  have h2 : (2 : ℝ) ^ (0.5 : ℝ) = Real.sqrt 2 := by
    rw [Real.sqrt_eq_rpow]
    norm_num
  have hs2 : 0 < Real.sqrt 2 := Real.sqrt_pos.mpr (by norm_num)
  rw [h2, le_div_iff hs2]
  have hss : Real.sqrt 2 * Real.sqrt 2 = 2 := Real.mul_self_sqrt (by norm_num)
  linarith

/-- Splitting the sequential-probability-ratio term of the radius. -/
lemma spr_term_eq (alfa nu s : ℝ) (ha : 0 < alfa) (hnu : 1 < nu) (hz : 0 < zeta s) :
    Real.log (2 * zeta s / (alfa * Real.log nu ^ s))
      = Real.log (2 * zeta s / alfa) - s * Real.log (Real.log nu) := by
  have hlognu : 0 < Real.log nu := Real.log_pos hnu
  have hpow : (0 : ℝ) < Real.log nu ^ s := Real.rpow_pos_of_pos hlognu _
  rw [div_mul_eq_div_div]
  rw [Real.log_div (by positivity) (ne_of_gt hpow)]
  rw [Real.log_rpow hlognu]

/-- On the diagonal `t = m = n` the iterated-logarithm term cancels against
the shape-parameter part of the ratio term, leaving
`radius = k1 * 0.5 * (log(2 * zeta(s) / alfa) / n) ** 0.5`. -/
lemma median_conf_radius_diag (n : ℕ) (hn : 1 ≤ n) (alfa nu s : ℝ)
    (ha : 0 < alfa) (hnu : 1 < nu) (hz : 0 < zeta s) :
    median_conf_radius n alfa n nu s
      = (nu ^ (0.25 : ℝ) + nu ^ (-0.25 : ℝ)) / (2 : ℝ) ^ (0.5 : ℝ) * 0.5
          * (Real.log (2 * zeta s / alfa) / (n : ℝ)) ^ (0.5 : ℝ) := by
  have hn0 : (0 : ℝ) < (n : ℝ) := Nat.cast_pos.mpr (by omega)
  have hdiv : nu * (n : ℝ) / (n : ℝ) = nu := by field_simp
  simp only [median_conf_radius]
  rw [hdiv, spr_term_eq alfa nu s ha hnu hz]
  have harg : s * Real.log (Real.log nu)
      + (Real.log (2 * zeta s / alfa) - s * Real.log (Real.log nu))
      = Real.log (2 * zeta s / alfa) := by ring
  rw [harg]

/-- The bracket `l_t` of the radius formula is positive on the whole valid
parameter range. -/
lemma l_t_pos (t m : ℕ) (alfa nu s : ℝ) (hm : 1 ≤ m) (htm : m ≤ t)
    (ha0 : 0 < alfa) (ha1 : alfa < 1) (hnu : 1 < nu) (hs : 1 < s) :
    0 < s * Real.log (Real.log (nu * (t : ℝ) / (m : ℝ)))
        + Real.log (2 * zeta s / (alfa * Real.log nu ^ s)) := by
  have hm0 : (0 : ℝ) < (m : ℝ) := Nat.cast_pos.mpr (by omega)
  have hnu0 : (0 : ℝ) < nu := lt_trans one_pos hnu
  have hlognu : 0 < Real.log nu := Real.log_pos hnu
  have htm2 : (m : ℝ) ≤ (t : ℝ) := Nat.cast_le.mpr htm
  have h1m : (1 : ℝ) ≤ (t : ℝ) / (m : ℝ) := (one_le_div hm0).mpr htm2
  have harg : nu ≤ nu * (t : ℝ) / (m : ℝ) := by
    rw [mul_div_assoc]
    calc nu = nu * 1 := (mul_one nu).symm
      _ ≤ nu * ((t : ℝ) / (m : ℝ)) := mul_le_mul_of_nonneg_left h1m hnu0.le
  have hargpos : (0 : ℝ) < nu * (t : ℝ) / (m : ℝ) := lt_of_lt_of_le hnu0 harg
  have hlogarg : 0 < Real.log (nu * (t : ℝ) / (m : ℝ)) :=
    Real.log_pos (lt_of_lt_of_le hnu harg)
  have hlogle : Real.log nu ≤ Real.log (nu * (t : ℝ) / (m : ℝ)) :=
    (Real.log_le_log_iff hnu0 hargpos).mpr harg
  have hloglog : Real.log (Real.log nu) ≤ Real.log (Real.log (nu * (t : ℝ) / (m : ℝ))) :=
    (Real.log_le_log_iff hlognu hlogarg).mpr hlogle
  have hz : 0 < zeta s := zeta_pos hs
  have hC : 0 < Real.log (2 * zeta s / alfa) := by
    apply Real.log_pos
    rw [lt_div_iff ha0]
    nlinarith [one_le_zeta hs]
  rw [spr_term_eq alfa nu s ha0 hnu hz]
  nlinarith [mul_le_mul_of_nonneg_left hloglog (le_of_lt (lt_trans one_pos hs))]

/-- C3 counterexample: at the valid input `t = 1`, `alfa = 1/2`, `m = 1` with
the default shape parameters, the radius exceeds `0.5`, refuting the claimed
upper bound of the interval `[0, 0.5]`. -/
theorem C3_radius_counterexample :
    ((1 : ℕ) ≤ 1 ∧ (0 : ℝ) < 1 / 2 ∧ (1 / 2 : ℝ) < 1 ∧ (1 : ℝ) < 2.04 ∧ (1 : ℝ) < 1.4)
      ∧ ¬ median_conf_radius 1 (1 / 2) 1 2.04 1.4 ≤ 0.5 := by
  refine ⟨⟨le_rfl, by norm_num, by norm_num, by norm_num, by norm_num⟩, ?_⟩
  have hz : 0 < zeta 1.4 := zeta_pos (by norm_num)
  have h1z : 1 ≤ zeta 1.4 := one_le_zeta (by norm_num)
  rw [median_conf_radius_diag 1 le_rfl (1 / 2) 2.04 1.4 (by norm_num) (by norm_num) hz]
  rw [Nat.cast_one, div_one]
  have harg : 2 * zeta 1.4 / (1 / 2 : ℝ) = 4 * zeta 1.4 := by ring
  rw [harg]
  have hlog4 : Real.log 4 ≤ Real.log (4 * zeta 1.4) :=
    (Real.log_le_log_iff (by norm_num) (by positivity)).mpr (by linarith)
  have hlog2 : (0.6931471803 : ℝ) < Real.log 2 := Real.log_two_gt_d9
  have h4 : Real.log 4 = 2 * Real.log 2 := by
    rw [show (4 : ℝ) = 2 ^ (2 : ℕ) by norm_num, Real.log_pow]
    push_cast
    ring
  have hrpow : (Real.log (4 * zeta 1.4)) ^ (0.5 : ℝ) = Real.sqrt (Real.log (4 * zeta 1.4)) := by
    rw [Real.sqrt_eq_rpow]
    norm_num
  rw [hrpow]
  have hK := sqrt_two_le_k1 (show (1 : ℝ) < 2.04 by norm_num)
  have hKpos := k1_pos (show (1 : ℝ) < 2.04 by norm_num)
  have hmono : Real.sqrt (Real.log 4) ≤ Real.sqrt (Real.log (4 * zeta 1.4)) :=
    Real.sqrt_le_sqrt hlog4
  have hprod : 1 < Real.sqrt 2 * Real.sqrt (Real.log 4) := by
    rw [← Real.sqrt_mul (by norm_num : (0 : ℝ) ≤ 2)]
    rw [Real.lt_sqrt (by norm_num : (0 : ℝ) ≤ 1)]
    rw [one_pow, h4]
    nlinarith
  have hfin : Real.sqrt 2 * Real.sqrt (Real.log 4)
      ≤ ((2.04 : ℝ) ^ (0.25 : ℝ) + (2.04 : ℝ) ^ (-0.25 : ℝ)) / (2 : ℝ) ^ (0.5 : ℝ)
          * Real.sqrt (Real.log (4 * zeta 1.4)) :=
    mul_le_mul hK hmono (Real.sqrt_nonneg _) (le_of_lt hKpos)
  have h5 : 1 < ((2.04 : ℝ) ^ (0.25 : ℝ) + (2.04 : ℝ) ^ (-0.25 : ℝ)) / (2 : ℝ) ^ (0.5 : ℝ)
      * Real.sqrt (Real.log (4 * zeta 1.4)) := lt_of_lt_of_le hprod hfin
  push_neg
  nlinarith

/-- C3 amended: on the valid range (`1 ≤ m ≤ t`, `alfa ∈ (0,1)`, `nu > 1`,
`s > 1`) the radius is a (finite) strictly positive real; the claimed upper
bound `0.5` does not hold in general (see the counterexample at `t = m = 1`,
`alfa = 1/2`). -/
theorem C3_radius_positive (t m : ℕ) (alfa nu s : ℝ) (hm : 1 ≤ m) (htm : m ≤ t)
    (ha0 : 0 < alfa) (ha1 : alfa < 1) (hnu : 1 < nu) (hs : 1 < s) :
    0 < median_conf_radius t alfa m nu s := by
  have hlt := l_t_pos t m alfa nu s hm htm ha0 ha1 hnu hs
  have ht0 : (0 : ℝ) < (t : ℝ) := Nat.cast_pos.mpr (by omega)
  simp only [median_conf_radius]
  have h1 : 0 < (nu ^ (0.25 : ℝ) + nu ^ (-0.25 : ℝ)) / (2 : ℝ) ^ (0.5 : ℝ) := k1_pos hnu
  have h2 : (0 : ℝ) < ((s * Real.log (Real.log (nu * (t : ℝ) / (m : ℝ)))
      + Real.log (2 * zeta s / (alfa * Real.log nu ^ s))) / (t : ℝ)) ^ (0.5 : ℝ) :=
    Real.rpow_pos_of_pos (div_pos hlt ht0) _
  nlinarith

/-- Witness for the amended C3 at `t = 2`, `m = 1`, `alfa = 1/2`, `nu = 2`,
`s = 2`. -/
theorem C3_radius_positive_witness :
    ((1 : ℕ) ≤ 1 ∧ (1 : ℕ) ≤ 2 ∧ (0 : ℝ) < 1 / 2 ∧ (1 / 2 : ℝ) < 1
        ∧ (1 : ℝ) < 2 ∧ (1 : ℝ) < 2)
      ∧ 0 < median_conf_radius 2 (1 / 2) 1 2 2 := by
  refine ⟨⟨le_rfl, by norm_num, by norm_num, by norm_num, by norm_num, by norm_num⟩, ?_⟩
  exact C3_radius_positive 2 1 (1 / 2) 2 2 le_rfl (by norm_num) (by norm_num) (by norm_num)
    (by norm_num) (by norm_num)

/-- The diagonal radius drops below `0.5` for a large enough start index, so
the forward search of `minimum_bounding_n` terminates. -/
lemma radius_diag_lt_half (alfa : ℝ) (ha0 : 0 < alfa) (ha1 : alfa < 1) :
    ∃ k : ℕ, median_conf_radius (k + 1) alfa (k + 1) 2.04 1.4 < 0.5 := by
  have hK : 0 < ((2.04 : ℝ) ^ (0.25 : ℝ) + (2.04 : ℝ) ^ (-0.25 : ℝ)) / (2 : ℝ) ^ (0.5 : ℝ) :=
    k1_pos (by norm_num)
  have hz : 0 < zeta 1.4 := zeta_pos (by norm_num)
  have hCpos : 0 < Real.log (2 * zeta 1.4 / alfa) := by
    apply Real.log_pos
    rw [lt_div_iff ha0]
    nlinarith [one_le_zeta (show (1 : ℝ) < 1.4 by norm_num)]
  set K := ((2.04 : ℝ) ^ (0.25 : ℝ) + (2.04 : ℝ) ^ (-0.25 : ℝ)) / (2 : ℝ) ^ (0.5 : ℝ) with hKdef
  set C := Real.log (2 * zeta 1.4 / alfa) with hCdef
  obtain ⟨n0, hn0⟩ := exists_nat_gt (K ^ 2 * C)
  refine ⟨n0, ?_⟩
  rw [median_conf_radius_diag (n0 + 1) (by omega) alfa 2.04 1.4 ha0 (by norm_num) hz]
  have hnpos : (0 : ℝ) < ((n0 + 1 : ℕ) : ℝ) := Nat.cast_pos.mpr (by omega)
  have hlt : C / ((n0 + 1 : ℕ) : ℝ) < 1 / K ^ 2 := by
    rw [div_lt_div_iff hnpos (by positivity)]
    have hcast : (n0 : ℝ) < ((n0 + 1 : ℕ) : ℝ) := by
      push_cast
      linarith
    nlinarith
  have hrw : (C / ((n0 + 1 : ℕ) : ℝ)) ^ (0.5 : ℝ)
      = Real.sqrt (C / ((n0 + 1 : ℕ) : ℝ)) := by
    rw [Real.sqrt_eq_rpow]
    norm_num
  rw [hrw]
  have hsq : Real.sqrt (C / ((n0 + 1 : ℕ) : ℝ)) < 1 / K := by
    rw [Real.sqrt_lt' (by positivity : (0 : ℝ) < 1 / K)]
    rw [div_pow, one_pow]
    exact hlt
  calc K * 0.5 * Real.sqrt (C / ((n0 + 1 : ℕ) : ℝ))
      < K * 0.5 * (1 / K) := by
        apply mul_lt_mul_of_pos_left hsq
        positivity
    _ = 0.5 := by field_simp

/-- C4: for every `alfa ∈ (0, 1)` the search of `minimum_bounding_n`
terminates and returns the smallest positive `n` whose diagonal radius is
below `0.5`; in particular for a result `n > 1` the radius at `n - 1` is at
least `0.5`. -/
theorem C4_minimum_bounding_n (alfa : ℝ) (ha0 : 0 < alfa) (ha1 : alfa < 1) :
    (∃ k : ℕ, median_conf_radius (k + 1) alfa (k + 1) 2.04 1.4 < 0.5)
      ∧ 0 < minimum_bounding_n alfa
      ∧ median_conf_radius (minimum_bounding_n alfa) alfa (minimum_bounding_n alfa) 2.04 1.4
          < 0.5
      ∧ (∀ j : ℕ, 0 < j → j < minimum_bounding_n alfa →
          ¬ median_conf_radius j alfa j 2.04 1.4 < 0.5)
      ∧ (1 < minimum_bounding_n alfa →
          0.5 ≤ median_conf_radius (minimum_bounding_n alfa - 1) alfa
              (minimum_bounding_n alfa - 1) 2.04 1.4) := by
  classical
  have hex := radius_diag_lt_half alfa ha0 ha1
  have hdef : minimum_bounding_n alfa = Nat.find hex + 1 := by
    rw [minimum_bounding_n, dif_pos hex]
  have hfind := Nat.find_spec hex
  refine ⟨hex, by rw [hdef]; omega, by rw [hdef]; exact hfind, ?_, ?_⟩
  · intro j hj0 hjlt
    rw [hdef] at hjlt
    have hj1 : j - 1 < Nat.find hex := by omega
    have hmin := Nat.find_min hex hj1
    have hj2 : j - 1 + 1 = j := by omega
    rwa [hj2] at hmin
  · intro h1
    rw [hdef] at h1 ⊢
    have hmin := Nat.find_min hex (show Nat.find hex - 1 < Nat.find hex by omega)
    have heq : Nat.find hex - 1 + 1 = Nat.find hex := by omega
    rw [heq] at hmin
    have heq2 : Nat.find hex + 1 - 1 = Nat.find hex := by omega
    rw [heq2]
    exact not_lt.mp hmin

/-- Witness for C4 at `alfa = 1/2`. -/
theorem C4_minimum_bounding_n_witness :
    ((0 : ℝ) < 1 / 2 ∧ (1 / 2 : ℝ) < 1)
      ∧ median_conf_radius (minimum_bounding_n (1 / 2)) (1 / 2)
          (minimum_bounding_n (1 / 2)) 2.04 1.4 < 0.5 :=
  ⟨⟨by norm_num, by norm_num⟩,
    (C4_minimum_bounding_n (1 / 2) (by norm_num) (by norm_num)).2.2.1⟩

/-- C5: `median_conf_bound` returns `(-∞, +∞)` exactly when the sample is
shorter than `minimum_bounding_n(p_value)`; otherwise it returns the empirical
percentile interval at `(0.5 ± radius) * 100` with
`radius = _median_conf_radius(len(sample), p_value, minimum_bounding_n(p_value))`. -/
theorem C5_median_conf_bound (sample : List ℝ) (p_value : ℝ)
    (hp0 : 0 < p_value) (hp1 : p_value < 1) :
    (median_conf_bound sample p_value = (⊥, ⊤)
        ↔ sample.length < minimum_bounding_n p_value)
      ∧ (minimum_bounding_n p_value ≤ sample.length →
          median_conf_bound sample p_value
            = (((scoreatpercentile sample
                  ((0.5 - median_conf_radius sample.length p_value
                      (minimum_bounding_n p_value) 2.04 1.4) * 100) : ℝ) : EReal),
               ((scoreatpercentile sample
                  ((0.5 + median_conf_radius sample.length p_value
                      (minimum_bounding_n p_value) 2.04 1.4) * 100) : ℝ) : EReal))) := by
  by_cases h : sample.length < minimum_bounding_n p_value
  · rw [median_conf_bound, if_pos h]
    exact ⟨⟨fun _ => h, fun _ => rfl⟩, fun hle => absurd h (not_lt.mpr hle)⟩
  · rw [median_conf_bound, if_neg h]
    refine ⟨⟨?_, fun hlt => absurd hlt h⟩, fun _ => rfl⟩
    intro heq
    exfalso
    have hfst := congrArg Prod.fst heq
    exact EReal.coe_ne_bot _ hfst

/-- Witness for C5 on the empty sample at `p_value = 1/2`. -/
theorem C5_median_conf_bound_witness :
    ((0 : ℝ) < 1 / 2 ∧ (1 / 2 : ℝ) < 1)
      ∧ (median_conf_bound [] (1 / 2) = (⊥, ⊤)
          ↔ ([] : List ℝ).length < minimum_bounding_n (1 / 2)) :=
  ⟨⟨by norm_num, by norm_num⟩,
    (C5_median_conf_bound [] (1 / 2) (by norm_num) (by norm_num)).1⟩

/-- Witness for the amended C2: a NaN at the first step raises at index 0. -/
theorem C2_gradients_check_witness :
    grad_raise_idx (none :: ([] : List (Option ℝ))) = some 0 :=
  (C2_gradients_check 0 []).1
